import Mathlib

/-!
Verification of the `RateLimiter` class of `semanager.py`
(Spicetify-Extension-Manager).

The Python source is:

```
class RateLimiter:
    def __init__(self, calls_per_interval, interval):
        self.calls_per_interval = calls_per_interval
        self.interval = interval
        self.calls = []

    def wait(self):
        now = time.time()
        self.calls = [t for t in self.calls if now - t < self.interval]
        if len(self.calls) >= self.calls_per_interval:
            sleep_time = self.interval - (now - self.calls[0])
            time.sleep(sleep_time)
        self.calls.append(time.time())
```

Modelling choices:
* Timestamps are rationals (`ℚ`): `time.time()` returns a real-valued
  clock reading; rationals keep every definition executable and decidable.
* `calls_per_interval` is an integer (`ℤ`): Python places no positivity
  restriction on it, and the behaviour at non-positive values matters.
* `wait` reads the clock twice: once at entry (`now`, line `now =
  time.time()`) and once at the final append (`now2`, the
  `self.calls.append(time.time())` line).  Both readings are explicit
  arguments; theorems relate them by hypotheses (non-decreasing clock,
  sleep actually elapsing) where a claim needs that.
* Runtime errors of the Python code are explicit: `self.calls[0]` on an
  empty list raises `IndexError`, and `time.sleep` of a negative amount
  raises `ValueError`; `wait` returns `Except PyError` accordingly.
* On success `wait` returns the new state together with the duration
  passed to `time.sleep` (`0` when the `if` branch is not taken).
-/

deriving instance DecidableEq for Except

/-- Runtime errors the Python `wait` body can raise. -/
inductive PyError where
  | indexError
  | valueError
deriving DecidableEq, Repr

/-- State of a `RateLimiter` instance: the two constructor arguments and
the mutable `self.calls` list of admission timestamps. -/
structure RateLimiter where
  calls_per_interval : ℤ
  interval : ℚ
  calls : List ℚ
deriving DecidableEq, Repr

/-- `RateLimiter.__init__`: stores both arguments unvalidated and starts
with an empty timestamp list.  It cannot fail. -/
def RateLimiter.init (calls_per_interval : ℤ) (interval : ℚ) : RateLimiter :=
  ⟨calls_per_interval, interval, []⟩

/-- The pruning list comprehension
`[t for t in self.calls if now - t < self.interval]`. -/
def prune (calls : List ℚ) (now iv : ℚ) : List ℚ :=
  calls.filter (fun t => decide (now - t < iv))

/-- `RateLimiter.wait`, with the two `time.time()` readings (`now` at
entry, `now2` at the final append) as arguments.  Returns the new state
and the amount of time handed to `time.sleep` (`0` if no sleep), or the
runtime error the Python body would raise. -/
def RateLimiter.wait (rl : RateLimiter) (now now2 : ℚ) :
    Except PyError (RateLimiter × ℚ) :=
  if ((prune rl.calls now rl.interval).length : ℤ) ≥ rl.calls_per_interval then
    match prune rl.calls now rl.interval with
    | [] => .error .indexError
    | t0 :: _ =>
      if rl.interval - (now - t0) < 0 then .error .valueError
      else
        .ok (⟨rl.calls_per_interval, rl.interval,
               prune rl.calls now rl.interval ++ [now2]⟩,
             rl.interval - (now - t0))
  else
    .ok (⟨rl.calls_per_interval, rl.interval,
           prune rl.calls now rl.interval ++ [now2]⟩, 0)

example :
    (RateLimiter.init 3 10).wait 0 0 =
      .ok (⟨3, 10, [0]⟩, 0) := by norm_num [RateLimiter.wait, RateLimiter.init, prune]

example :
    RateLimiter.wait ⟨3, 10, [0, 0, 0]⟩ (1/10) 10 =
      .ok (⟨3, 10, [0, 0, 0, 10]⟩, 99/10) := by norm_num [RateLimiter.wait, prune]

example :
    (RateLimiter.init 0 1).wait 0 0 = .error .indexError := by
  norm_num [RateLimiter.wait, RateLimiter.init, prune]

section PruneLemmas

variable {calls : List ℚ} {now iv t τ : ℚ}

theorem mem_prune : τ ∈ prune calls now iv ↔ τ ∈ calls ∧ now - τ < iv := by
  simp [prune]

theorem prune_sublist (calls : List ℚ) (now iv : ℚ) :
    List.Sublist (prune calls now iv) calls :=
  List.filter_sublist _

/-- Pruning later (at `now ≥ t`) discards at least as much as pruning
earlier: the later pruned list is a sublist of the earlier one. -/
theorem prune_mono (h : t ≤ now) (calls : List ℚ) (iv : ℚ) :
    List.Sublist (prune calls now iv) (prune calls t iv) := by
  refine List.monotone_filter_right _ (fun a ha => ?_)
  simp only [decide_eq_true_eq] at ha ⊢
  linarith

/-- Counting entries newer than a cutoff `Y` is unaffected by pruning at
`now` as long as the cutoff is at least `now - iv`. -/
theorem countP_prune_eq {Y : ℚ} (h : now - iv ≤ Y) :
    (prune calls now iv).countP (fun τ => decide (Y < τ)) =
      calls.countP (fun τ => decide (Y < τ)) := by
  rw [prune, List.countP_filter]
  refine List.countP_congr (fun x _ => ?_)
  simp only [Bool.and_eq_true, decide_eq_true_eq]
  exact ⟨fun hx => hx.1, fun hx => ⟨hx, by linarith⟩⟩

end PruneLemmas

/-- Full case analysis of a successful `wait`: the new state always has
the same configuration and calls list `pruned ++ [now2]`, the slept
duration is non-negative, and it is `0` exactly when the pruned count was
below `calls_per_interval`; otherwise it is
`interval - (now - pruned.head)` and lands `now + s` exactly at
`pruned.head + interval`. -/
theorem wait_ok_inv {rl rl' : RateLimiter} {now now2 s : ℚ}
    (h : rl.wait now now2 = .ok (rl', s)) :
    rl' = ⟨rl.calls_per_interval, rl.interval,
            prune rl.calls now rl.interval ++ [now2]⟩ ∧
    0 ≤ s ∧
    ((((prune rl.calls now rl.interval).length : ℤ) < rl.calls_per_interval ∧
        s = 0) ∨
      (∃ t0 rest, prune rl.calls now rl.interval = t0 :: rest ∧
        rl.calls_per_interval ≤ ((prune rl.calls now rl.interval).length : ℤ) ∧
        s = rl.interval - (now - t0) ∧ now + s = t0 + rl.interval)) := by
  unfold RateLimiter.wait at h
  split at h
  · rename_i hge
    split at h
    · exact absurd h (by simp)
    · rename_i t0 rest hp
      split at h
      · exact absurd h (by simp)
      · rename_i hns
        rw [Except.ok.injEq, Prod.mk.injEq] at h
        obtain ⟨hrl, hs⟩ := h
        refine ⟨hrl.symm, ?_, Or.inr ⟨t0, rest, hp, hge, hs.symm, ?_⟩⟩
        · rw [← hs]; linarith [not_lt.mp hns]
        · rw [← hs]; ring
  · rename_i hlt
    rw [Except.ok.injEq, Prod.mk.injEq] at h
    obtain ⟨hrl, hs⟩ := h
    exact ⟨hrl.symm, le_of_eq hs, Or.inl ⟨lt_of_not_ge hlt, hs.symm⟩⟩

/-- Pruning drops a head timestamp that has been in the list for at
least a full `interval`. -/
theorem prune_cons_of_expired {now iv t0 : ℚ} {l : List ℚ} (h : iv ≤ now - t0) :
    prune (t0 :: l) now iv = prune l now iv := by
  rw [prune, prune, List.filter_cons_of_neg]
  simp only [decide_eq_true_eq, not_lt]
  exact h

/-- Pruning keeps the whole list when every entry is still inside the
window. -/
theorem prune_eq_self {now iv : ℚ} {l : List ℚ} (h : ∀ τ ∈ l, now - τ < iv) :
    prune l now iv = l :=
  List.filter_eq_self.mpr (fun a ha => decide_eq_true (h a ha))

/-- Evaluation of `wait` when the pruned count is below the limit: no
sleep, the fresh timestamp is appended. -/
theorem wait_no_sleep {cap : ℤ} {iv now now2 : ℚ} {cs : List ℚ}
    (h : ((prune cs now iv).length : ℤ) < cap) :
    RateLimiter.wait ⟨cap, iv, cs⟩ now now2 =
      .ok (⟨cap, iv, prune cs now iv ++ [now2]⟩, 0) := by
  unfold RateLimiter.wait
  dsimp only
  rw [if_neg (not_le.mpr h)]

/-- Evaluation of `wait` when the pruned count has reached the limit:
the thread sleeps for `interval - (now - head)` and then appends the
fresh timestamp. -/
theorem wait_sleep {cap : ℤ} {iv now now2 t0 : ℚ} {rest cs : List ℚ}
    (hp : prune cs now iv = t0 :: rest)
    (hge : cap ≤ ((prune cs now iv).length : ℤ)) :
    RateLimiter.wait ⟨cap, iv, cs⟩ now now2 =
      .ok (⟨cap, iv, prune cs now iv ++ [now2]⟩, iv - (now - t0)) := by
  have ht0 : now - t0 < iv :=
    (mem_prune.mp (hp ▸ List.mem_cons_self t0 rest)).2
  unfold RateLimiter.wait
  dsimp only
  rw [if_pos hge, hp]
  dsimp only
  rw [if_neg (by linarith)]

/-- One completed execution of a `RateLimiter` under a nondecreasing
clock.  `Run cap iv admitted calls t` says: starting from the freshly
constructed limiter `RateLimiter.init cap iv`, some sequence of `wait`
calls has completed; `admitted` lists every admission timestamp ever
appended (each call's second clock reading, in order), `calls` is the
current `self.calls`, and `t` is the last appended reading (or the
construction instant when no call has happened).  Each step reads the
clock no earlier than the previous reading (`t ≤ now`), and a sleep of
`s` really suspends the thread, so the append-time reading satisfies
`now + s ≤ now2`. -/
inductive Run (cap : ℤ) (iv : ℚ) : List ℚ → List ℚ → ℚ → Prop where
  | init (t : ℚ) : Run cap iv [] [] t
  | step (admitted calls calls' : List ℚ) (t now now2 s : ℚ)
      (h1 : Run cap iv admitted calls t)
      (htn : t ≤ now)
      (hw : RateLimiter.wait ⟨cap, iv, calls⟩ now now2 =
        .ok (⟨cap, iv, calls'⟩, s))
      (hns : now + s ≤ now2) :
      Run cap iv (admitted ++ [now2]) calls' now2

/-- Master invariant of executions: every admission is in the past, the
retained list also lives in the past, admissions newer than any cutoff at
least `t - iv` are all still retained (with multiplicity), at most `cap`
retained entries are unexpired, every trailing window of the full
admission history holds at most `cap` admissions, the retained list is
sorted, and its physical length is at most `cap + 1`. -/
theorem run_inv {cap : ℤ} {iv : ℚ} {admitted calls : List ℚ} {t : ℚ}
    (hcap : 0 < cap) (h : Run cap iv admitted calls t) :
    (∀ τ ∈ admitted, τ ≤ t) ∧
    (∀ τ ∈ calls, τ ≤ t) ∧
    (∀ Y : ℚ, t - iv ≤ Y →
      admitted.countP (fun τ => decide (Y < τ)) ≤
        calls.countP (fun τ => decide (Y < τ))) ∧
    ((prune calls t iv).length : ℤ) ≤ cap ∧
    (∀ T : ℚ,
      (admitted.countP (fun τ => decide (T - iv < τ ∧ τ ≤ T)) : ℤ) ≤ cap) ∧
    List.Sorted (· ≤ ·) calls ∧
    (calls.length : ℤ) ≤ cap + 1 := by
  induction h with
  | init t =>
      refine ⟨by simp, by simp, fun Y _ => le_refl _, ?_, fun T => ?_,
        List.sorted_nil, ?_⟩
      · simp only [prune, List.filter_nil, List.length_nil, Nat.cast_zero]
        omega
      · simp only [List.countP_nil, Nat.cast_zero]
        omega
      · simp only [List.length_nil, Nat.cast_zero]
        omega
  | step admitted calls calls' t now now2 s h1 htn hw hns ih =>
      obtain ⟨ha, hc, hb, hpr, hd, hsort, hlen⟩ := ih
      obtain ⟨heq, h0s, hcase⟩ := wait_ok_inv hw
      dsimp only at heq hcase
      rw [RateLimiter.mk.injEq] at heq
      obtain ⟨-, -, hcalls'⟩ := heq
      subst hcalls'
      have hnow2 : now ≤ now2 := by linarith
      have htt2 : t ≤ now2 := le_trans htn hnow2
      have hpruned_le : ((prune calls now iv).length : ℤ) ≤ cap := by
        have hm := (prune_mono htn calls iv).length_le
        omega
      refine ⟨?_, ?_, ?_, ?_, ?_, ?_, ?_⟩
      · intro τ hτ
        rcases List.mem_append.mp hτ with h' | h'
        · exact le_trans (ha τ h') htt2
        · exact le_of_eq (List.mem_singleton.mp h')
      · intro τ hτ
        rcases List.mem_append.mp hτ with h' | h'
        · exact le_trans (hc τ (mem_prune.mp h').1) htt2
        · exact le_of_eq (List.mem_singleton.mp h')
      · intro Y hY
        rw [List.countP_append, List.countP_append]
        have hb1 : admitted.countP (fun τ => decide (Y < τ)) ≤
            calls.countP (fun τ => decide (Y < τ)) := hb Y (by linarith)
        have hb2 : (prune calls now iv).countP (fun τ => decide (Y < τ)) =
            calls.countP (fun τ => decide (Y < τ)) :=
          countP_prune_eq (by linarith)
        omega
      · rcases hcase with ⟨hlt, hs0⟩ | ⟨t0, rest, hp, hge, hsf, hadd⟩
        · have hfl : (prune (prune calls now iv ++ [now2]) now2 iv).length ≤
              (prune calls now iv ++ [now2]).length :=
            List.length_filter_le _ _
          rw [List.length_append, List.length_cons, List.length_nil] at hfl
          omega
        · have hexp : iv ≤ now2 - t0 := by linarith
          rw [hp, List.cons_append, prune_cons_of_expired hexp]
          have hfl : (prune (rest ++ [now2]) now2 iv).length ≤
              (rest ++ [now2]).length :=
            List.length_filter_le _ _
          rw [List.length_append, List.length_cons, List.length_nil] at hfl
          have hplen : (prune calls now iv).length = rest.length + 1 := by
            rw [hp, List.length_cons]
          omega
      · intro T
        rw [List.countP_append]
        by_cases hT : T - iv < now2 ∧ now2 ≤ T
        · have hW1 : List.countP
              (fun τ => decide (T - iv < τ ∧ τ ≤ T)) [now2] = 1 := by
            simp [List.countP_cons, hT.1, hT.2]
          have m1 : admitted.countP (fun τ => decide (T - iv < τ ∧ τ ≤ T)) ≤
              admitted.countP (fun τ => decide (T - iv < τ)) :=
            List.countP_mono_left (fun x _ hx => by
              simp only [decide_eq_true_eq] at hx ⊢
              exact hx.1)
          have m2 : admitted.countP (fun τ => decide (T - iv < τ)) ≤
              calls.countP (fun τ => decide (T - iv < τ)) :=
            hb (T - iv) (by linarith [hT.2])
          have m3 : (prune calls now iv).countP
              (fun τ => decide (T - iv < τ)) =
              calls.countP (fun τ => decide (T - iv < τ)) :=
            countP_prune_eq (by linarith [hT.2])
          rcases hcase with ⟨hlt, hs0⟩ | ⟨t0, rest, hp, hge, hsf, hadd⟩
          · have m4 : (prune calls now iv).countP
                (fun τ => decide (T - iv < τ)) ≤
                (prune calls now iv).length :=
              List.countP_le_length _
            omega
          · have hexp : ¬(T - iv < t0) := by
              push_neg
              linarith [hT.2]
            have m4 : (prune calls now iv).countP
                (fun τ => decide (T - iv < τ)) ≤ rest.length := by
              rw [hp, List.countP_cons, decide_eq_false hexp]
              have : rest.countP (fun τ => decide (T - iv < τ)) ≤
                  rest.length := List.countP_le_length _
              simpa using this
            have hplen : (prune calls now iv).length = rest.length + 1 := by
              rw [hp, List.length_cons]
            omega
        · have hW0 : List.countP
              (fun τ => decide (T - iv < τ ∧ τ ≤ T)) [now2] = 0 := by
            rw [List.countP_eq_zero]
            intro a ha
            have haeq : a = now2 := List.mem_singleton.mp ha
            subst haeq
            simp only [decide_eq_true_eq]
            exact hT
          have := hd T
          omega
      · show List.Pairwise (· ≤ ·) (prune calls now iv ++ [now2])
        rw [List.pairwise_append]
        refine ⟨List.Pairwise.sublist (prune_sublist calls now iv) hsort, ?_, ?_⟩
        · exact List.sorted_singleton now2
        · intro a haa b hbb
          rw [List.mem_singleton.mp hbb]
          exact le_trans (hc a (mem_prune.mp haa).1) htt2
      · rw [List.length_append, List.length_cons, List.length_nil]
        omega

/-- The negative-sleep (`ValueError`) branch of `wait` is unreachable:
pruning keeps only timestamps with `now - t < interval`, so the computed
`sleep_time` is positive. -/
theorem wait_ne_valueError (rl : RateLimiter) (now now2 : ℚ) :
    rl.wait now now2 ≠ .error .valueError := by
  unfold RateLimiter.wait
  split
  · split
    · simp
    · rename_i t0 rest hp
      have ht0 : t0 ∈ prune rl.calls now rl.interval := by
        rw [hp]; exact List.mem_cons_self _ _
      have := (mem_prune.mp ht0).2
      split
      · rename_i hns
        exact absurd hns (by simp only [not_lt]; linarith)
      · simp
  · simp

/-- Run `wait` once per entry of `ts`, with both clock readings of each
call equal to that entry (back-to-back calls during which no measurable
time passes).  Returns the final state and the list of slept durations. -/
def waitSeq : RateLimiter → List ℚ → Except PyError (RateLimiter × List ℚ)
  | rl, [] => .ok (rl, [])
  | rl, t :: ts =>
      Except.bind (rl.wait t t) (fun p =>
        Except.bind (waitSeq p.1 ts) (fun q => .ok (q.1, p.2 :: q.2)))

theorem except_bind_ok {ε α β : Type} (a : α) (f : α → Except ε β) :
    Except.bind (Except.ok a) f = f a := rfl

/-- Generalized burst lemma: starting from retained list `cs`, if all of
`cs` and the upcoming call times lie within one window of each other and
the total count fits under the capacity, every call returns with zero
sleep and the timestamps accumulate in order. -/
theorem waitSeq_burst {cap : ℤ} {iv : ℚ} (ts : List ℚ) :
    ∀ cs : List ℚ,
    (cs.length : ℤ) + (ts.length : ℤ) ≤ cap →
    (∀ a ∈ cs ++ ts, ∀ b ∈ cs ++ ts, a - b < iv) →
    waitSeq ⟨cap, iv, cs⟩ ts =
      .ok (⟨cap, iv, cs ++ ts⟩, List.replicate ts.length 0) := by
  induction ts with
  | nil =>
      intro cs _ _
      simp [waitSeq]
  | cons t ts ih =>
      intro cs hlen hwin
      have htmem : t ∈ cs ++ t :: ts :=
        List.mem_append_right _ (List.mem_cons_self _ _)
      have hkeep : prune cs t iv = cs :=
        prune_eq_self (fun τ hτ => hwin t htmem τ (List.mem_append_left _ hτ))
      have hlt : ((prune cs t iv).length : ℤ) < cap := by
        rw [hkeep]
        simp only [List.length_cons] at hlen
        omega
      have hlen' : ((cs ++ [t]).length : ℤ) + (ts.length : ℤ) ≤ cap := by
        simp only [List.length_append, List.length_cons, List.length_nil,
          List.length_cons] at hlen ⊢
        omega
      have hwin' : ∀ a ∈ (cs ++ [t]) ++ ts, ∀ b ∈ (cs ++ [t]) ++ ts,
          a - b < iv := by
        have hiff : ∀ x : ℚ, x ∈ (cs ++ [t]) ++ ts → x ∈ cs ++ t :: ts := by
          intro x hx
          simp only [List.mem_append, List.mem_cons, List.mem_singleton] at hx ⊢
          tauto
        intro a haa b hbb
        exact hwin a (hiff a haa) b (hiff b hbb)
      rw [waitSeq, wait_no_sleep hlt, except_bind_ok]
      dsimp only
      rw [hkeep, ih (cs ++ [t]) hlen' hwin', except_bind_ok]
      dsimp only
      rw [List.append_assoc, List.singleton_append, List.length_cons,
        List.replicate_succ]

/-- A strictly `d`-spaced chain starting at `x` whose members are all at
most `hi` forces `x + length * d ≤ hi`. -/
theorem spaced_head_le {d hi : ℚ} :
    ∀ (l : List ℚ) (x : ℚ),
      List.Pairwise (fun a b => d < b - a) (x :: l) →
      (∀ y ∈ x :: l, y ≤ hi) →
      x + l.length * d ≤ hi := by
  intro l
  induction l with
  | nil =>
      intro x _ hhi
      simpa using hhi x (List.mem_cons_self _ _)
  | cons y l ih =>
      intro x hpw hhi
      obtain ⟨hx, hpw'⟩ := List.pairwise_cons.mp hpw
      have hxy : d < y - x := hx y (List.mem_cons_self _ _)
      have hy := ih y hpw' (fun z hz => hhi z (List.mem_cons_of_mem _ hz))
      rw [List.length_cons]
      push_cast
      linarith

/-- If the retained timestamps are pairwise more than `iv / cap` apart
(also from the incoming call time `now`) and all within the window
ending at `now`, there are fewer than `cap` of them. -/
theorem spaced_count_lt {cap : ℤ} {iv now : ℚ} (hcap : 0 < cap)
    (hiv : 0 < iv) (kept : List ℚ)
    (hpw : List.Pairwise (fun a b => iv / (cap : ℚ) < b - a) (kept ++ [now]))
    (hin : ∀ τ ∈ kept, now - τ < iv) :
    (kept.length : ℤ) < cap := by
  have hcapQ : (0 : ℚ) < (cap : ℚ) := by exact_mod_cast hcap
  have hdpos : 0 < iv / (cap : ℚ) := div_pos hiv hcapQ
  have hivd : (cap : ℚ) * (iv / (cap : ℚ)) = iv := by
    field_simp
  cases kept with
  | nil =>
      simpa using hcap
  | cons x r =>
      have hpw' : List.Pairwise (fun a b => iv / (cap : ℚ) < b - a)
          (x :: (r ++ [now])) := by
        simpa [List.cons_append] using hpw
      have hbefore : ∀ a ∈ x :: r, iv / (cap : ℚ) < now - a := by
        have hsplit := (List.pairwise_append.mp hpw).2.2
        intro a haa
        exact hsplit a haa now (List.mem_singleton.mpr rfl)
      have hhi : ∀ y ∈ x :: (r ++ [now]), y ≤ now := by
        intro y hy
        rcases List.mem_cons.mp hy with rfl | hy'
        · have := hbefore y (List.mem_cons_self _ _)
          linarith
        · rcases List.mem_append.mp hy' with hy'' | hy''
          · have := hbefore y (List.mem_cons_of_mem _ hy'')
            linarith
          · exact le_of_eq (List.mem_singleton.mp hy'')
      have hA := spaced_head_le (r ++ [now]) x hpw' hhi
      have hx_in : now - x < iv := hin x (List.mem_cons_self _ _)
      rw [List.length_append, List.length_cons, List.length_nil] at hA
      have hql : ((r.length : ℚ) + 1) * (iv / (cap : ℚ)) < iv := by
        push_cast at hA
        linarith
      have hqc : (r.length : ℚ) + 1 < (cap : ℚ) := by
        by_contra hcon
        push_neg at hcon
        have hmul : (cap : ℚ) * (iv / (cap : ℚ)) ≤
            ((r.length : ℚ) + 1) * (iv / (cap : ℚ)) :=
          mul_le_mul_of_nonneg_right hcon (le_of_lt hdpos)
        rw [hivd] at hmul
        linarith
      rw [List.length_cons]
      exact_mod_cast hqc

/-- Generalized spacing lemma: if current retained timestamps and all
upcoming call times are pairwise more than `iv / cap` apart (in order),
every call returns with zero sleep. -/
theorem waitSeq_spaced {cap : ℤ} {iv : ℚ} (hcap : 0 < cap) (hiv : 0 < iv)
    (ts : List ℚ) :
    ∀ cs : List ℚ,
      List.Pairwise (fun a b => iv / (cap : ℚ) < b - a) (cs ++ ts) →
      ∃ cs' : List ℚ,
        waitSeq ⟨cap, iv, cs⟩ ts =
          .ok (⟨cap, iv, cs'⟩, List.replicate ts.length 0) := by
  induction ts with
  | nil =>
      intro cs _
      exact ⟨cs, by simp [waitSeq]⟩
  | cons t ts ih =>
      intro cs hpw
      have hsub : List.Sublist (prune cs t iv ++ [t]) (cs ++ t :: ts) :=
        List.Sublist.append (prune_sublist _ _ _)
          (List.cons_sublist_cons.mpr (List.nil_sublist ts))
      have hkpw : List.Pairwise (fun a b => iv / (cap : ℚ) < b - a)
          (prune cs t iv ++ [t]) := List.Pairwise.sublist hsub hpw
      have hin : ∀ τ ∈ prune cs t iv, t - τ < iv :=
        fun τ hτ => (mem_prune.mp hτ).2
      have hlt : ((prune cs t iv).length : ℤ) < cap :=
        spaced_count_lt hcap hiv _ hkpw hin
      have hpw' : List.Pairwise (fun a b => iv / (cap : ℚ) < b - a)
          ((prune cs t iv ++ [t]) ++ ts) := by
        refine List.Pairwise.sublist ?_ hpw
        rw [List.append_assoc, List.singleton_append]
        exact List.Sublist.append (prune_sublist _ _ _) (List.Sublist.refl _)
      obtain ⟨cs', hcs'⟩ := ih (prune cs t iv ++ [t]) hpw'
      refine ⟨cs', ?_⟩
      rw [waitSeq, wait_no_sleep hlt, except_bind_ok]
      dsimp only
      rw [hcs', except_bind_ok]
      dsimp only
      rw [List.length_cons, List.replicate_succ]

/-!
## Claim theorems
-/

/-- C1: for every sequence of `wait()` calls on a limiter with positive
capacity and window, under a nondecreasing clock, no trailing
window-length interval of the full admission history ever contains more
than `capacity` admissions; in particular, immediately after any
`wait()` returns, the number of retained timestamps newer than
`now - windowDuration` is at most `capacity`. -/
theorem C1_sliding_window_invariant {cap : ℤ} {iv : ℚ}
    {admitted calls : List ℚ} {t : ℚ}
    (hcap : 0 < cap) (_hiv : 0 < iv) (h : Run cap iv admitted calls t) :
    (∀ T : ℚ,
      (admitted.countP (fun τ => decide (T - iv < τ ∧ τ ≤ T)) : ℤ) ≤ cap) ∧
    ((prune calls t iv).length : ℤ) ≤ cap := by
  obtain ⟨-, -, -, h4, h5, -, -⟩ := run_inv hcap h
  exact ⟨h5, h4⟩

theorem C1_witness :
    (∀ T : ℚ,
      (List.countP (fun τ => decide (T - 1 < τ ∧ τ ≤ T)) [0] : ℤ) ≤ 1) ∧
    ((prune [0] 0 1).length : ℤ) ≤ 1 :=
  C1_sliding_window_invariant (by norm_num) (by norm_num)
    (Run.step [] [] [0] 0 0 0 0 (Run.init 0) (le_refl 0) (by decide)
      (by norm_num))

/-- C2: even when clock readings move backward between calls, `wait()`
never computes a negative sleep (the value handed to `time.sleep` is
always `≥ 0`, so clamping would be a no-op and `time.sleep` never
raises), and the sleep is bounded by `interval + (B - now)` where `B`
bounds the stored timestamps — no unbounded blocking. -/
theorem C2_backward_clock_safe {rl : RateLimiter} {now now2 B : ℚ}
    (hB : ∀ τ ∈ rl.calls, τ ≤ B) :
    rl.wait now now2 ≠ .error .valueError ∧
    ∀ rl' s, rl.wait now now2 = .ok (rl', s) →
      0 ≤ s ∧ s ≤ max (rl.interval + (B - now)) 0 := by
  refine ⟨wait_ne_valueError rl now now2, ?_⟩
  intro rl' s hw
  obtain ⟨-, h0s, hcase⟩ := wait_ok_inv hw
  refine ⟨h0s, ?_⟩
  rcases hcase with ⟨-, hs0⟩ | ⟨t0, rest, hp, -, hsf, -⟩
  · rw [hs0]
    exact le_max_right _ _
  · have ht0B : t0 ≤ B :=
      hB t0 (mem_prune.mp (hp ▸ List.mem_cons_self t0 rest)).1
    have hsb : s ≤ rl.interval + (B - now) := by
      rw [hsf]
      linarith
    exact le_trans hsb (le_max_left _ _)

theorem C2_witness :
    RateLimiter.wait ⟨1, 10, [5]⟩ 3 3 ≠ .error .valueError ∧
    ∀ rl' s, RateLimiter.wait ⟨1, 10, [5]⟩ 3 3 = .ok (rl', s) →
      0 ≤ s ∧ s ≤ max ((10 : ℚ) + (5 - 3)) 0 :=
  C2_backward_clock_safe
    (by intro τ hτ; rw [List.mem_singleton.mp hτ])

/-- C3: the spec requires non-positive construction arguments to fail
fast with an invalid-configuration error, and `wait` on a successfully
constructed limiter to always return.  The code performs no validation:
`RateLimiter(0, 1)` constructs successfully, and its very first `wait`
evaluates `self.calls[0]` on the empty list and raises `IndexError`. -/
theorem C3_no_construction_validation :
    RateLimiter.init 0 1 = ⟨0, 1, []⟩ ∧
    (RateLimiter.init 0 1).wait 0 0 = .error .indexError :=
  ⟨rfl, by decide⟩

/-- C4: entered with exactly `capacity` unexpired timestamps retained
after pruning, `wait()` sleeps for exactly
`windowDuration - (now - oldestRetainedTimestamp)` and then appends the
fresh reading. -/
theorem C4_sleep_duration_formula {cap : ℤ} {iv now now2 t0 : ℚ}
    {cs rest : List ℚ}
    (hp : prune cs now iv = t0 :: rest)
    (hcount : ((prune cs now iv).length : ℤ) = cap) :
    RateLimiter.wait ⟨cap, iv, cs⟩ now now2 =
      .ok (⟨cap, iv, prune cs now iv ++ [now2]⟩, iv - (now - t0)) :=
  wait_sleep hp (le_of_eq hcount.symm)

theorem C4_witness :
    (prune [0] 2 10 = [(0 : ℚ)] ∧ ((prune [0] 2 10).length : ℤ) = 1) ∧
    RateLimiter.wait ⟨1, 10, [0]⟩ 2 12 =
      .ok (⟨1, 10, prune [0] 2 10 ++ [12]⟩, 10 - (2 - 0)) := by
  have hp : prune [0] 2 10 = [(0 : ℚ)] := by norm_num [prune]
  have hcount : ((prune [0] 2 10).length : ℤ) = 1 := by
    rw [hp]
    norm_num
  exact ⟨⟨hp, hcount⟩, C4_sleep_duration_formula hp hcount⟩

/-- C5: a burst of exactly `capacity` calls issued back-to-back (all
within one window, starting from the empty history) each return
immediately with zero induced sleep. -/
theorem C5_burst_zero_delay {cap : ℤ} {iv : ℚ} {ts : List ℚ}
    (_hcap : 0 < cap) (_hiv : 0 < iv)
    (hlen : (ts.length : ℤ) = cap)
    (hwin : ∀ a ∈ ts, ∀ b ∈ ts, a - b < iv) :
    waitSeq (RateLimiter.init cap iv) ts =
      .ok (⟨cap, iv, ts⟩, List.replicate ts.length 0) := by
  have h := waitSeq_burst ts []
    (by simpa using le_of_eq hlen)
    (by
      intro a haa b hbb
      simp only [List.nil_append] at haa hbb
      exact hwin a haa b hbb)
  simpa [RateLimiter.init] using h

theorem C5_witness :
    waitSeq (RateLimiter.init 2 10) [0, 1] =
      .ok (⟨2, 10, [0, 1]⟩, List.replicate 2 0) :=
  C5_burst_zero_delay (by norm_num) (by norm_num) (by norm_num)
    (by
      intro a haa b hbb
      simp only [List.mem_cons, List.not_mem_nil, or_false] at haa hbb
      rcases haa with rfl | rfl <;> rcases hbb with rfl | rfl <;> norm_num)

/-- C6: concrete scenario, capacity 3 and window 10 s: three calls
entering at t = 0 return immediately with zero sleep; a call entering at
t = 0.1 sleeps 9.9 s (returning at t = 10, when the first timestamp
expires); a call at t = 11 returns immediately with zero sleep. -/
theorem C6_concrete_scenario :
    (RateLimiter.init 3 10).wait 0 0 = .ok (⟨3, 10, [0]⟩, 0) ∧
    RateLimiter.wait ⟨3, 10, [0]⟩ 0 0 = .ok (⟨3, 10, [0, 0]⟩, 0) ∧
    RateLimiter.wait ⟨3, 10, [0, 0]⟩ 0 0 = .ok (⟨3, 10, [0, 0, 0]⟩, 0) ∧
    RateLimiter.wait ⟨3, 10, [0, 0, 0]⟩ (1/10) 10 =
      .ok (⟨3, 10, [0, 0, 0, 10]⟩, 99/10) ∧
    RateLimiter.wait ⟨3, 10, [0, 0, 0, 10]⟩ 11 11 =
      .ok (⟨3, 10, [10, 11]⟩, 0) := by
  refine ⟨?_, ?_, ?_, ?_, ?_⟩ <;>
    norm_num [RateLimiter.wait, RateLimiter.init, prune]

/-- C7: calls whose consecutive arrival times are spaced strictly more
than `windowDuration / capacity` apart never block: every `wait` in such
a sequence returns with zero sleep. -/
theorem C7_spaced_calls_never_block {cap : ℤ} {iv : ℚ} {ts : List ℚ}
    (hcap : 0 < cap) (hiv : 0 < iv)
    (hsp : List.Chain' (fun a b => iv / (cap : ℚ) < b - a) ts) :
    ∃ cs', waitSeq (RateLimiter.init cap iv) ts =
      .ok (⟨cap, iv, cs'⟩, List.replicate ts.length 0) := by
  have hcapQ : (0 : ℚ) < (cap : ℚ) := by exact_mod_cast hcap
  have hdpos : 0 < iv / (cap : ℚ) := div_pos hiv hcapQ
  have hpw : List.Pairwise (fun a b => iv / (cap : ℚ) < b - a) ts := by
    haveI : IsTrans ℚ (fun a b => iv / (cap : ℚ) < b - a) :=
      ⟨fun a b c h1 h2 => by linarith⟩
    exact List.chain'_iff_pairwise.mp hsp
  have h := waitSeq_spaced hcap hiv ts [] (by simpa using hpw)
  simpa [RateLimiter.init] using h

theorem C7_witness :
    ∃ cs', waitSeq (RateLimiter.init 2 10) [0, 6] =
      .ok (⟨2, 10, cs'⟩, List.replicate 2 0) :=
  C7_spaced_calls_never_block (by norm_num) (by norm_num)
    (by
      refine List.chain'_cons.mpr ⟨?_, List.chain'_singleton _⟩
      norm_num)

/-- C8: in any state of a limiter with positive capacity, if strictly
more than a full window has elapsed since every retained timestamp, the
next `wait()` prunes everything and returns immediately with zero
sleep. -/
theorem C8_idle_window_resets {rl : RateLimiter} {now now2 : ℚ}
    (hcap : 0 < rl.calls_per_interval)
    (hidle : ∀ τ ∈ rl.calls, rl.interval < now - τ) :
    rl.wait now now2 =
      .ok (⟨rl.calls_per_interval, rl.interval, [now2]⟩, 0) := by
  have hempty : prune rl.calls now rl.interval = [] := by
    rw [prune, List.filter_eq_nil_iff]
    intro a ha
    simp only [decide_eq_true_eq, not_lt]
    exact le_of_lt (hidle a ha)
  have hlt : ((prune rl.calls now rl.interval).length : ℤ) <
      rl.calls_per_interval := by
    rw [hempty]
    simpa using hcap
  have h := @wait_no_sleep rl.calls_per_interval rl.interval now now2 rl.calls hlt
  rw [hempty, List.nil_append] at h
  exact h

theorem C8_witness :
    RateLimiter.wait ⟨1, 5, [0]⟩ 6 6 = .ok (⟨1, 5, [6]⟩, 0) :=
  C8_idle_window_resets (by norm_num)
    (by
      intro τ hτ
      simp only [List.mem_singleton] at hτ
      subst hτ
      norm_num)

/-- C9: with non-positive `calls_per_interval` construction succeeds
without error (no validation is performed), and the very first `wait()`
satisfies the count check on the empty list and so evaluates
`self.calls[0]` on an empty list, raising `IndexError`. -/
theorem C9_nonpositive_capacity_first_wait_index_error
    {cp : ℤ} {iv now now2 : ℚ} (hcp : cp ≤ 0) :
    (RateLimiter.init cp iv).calls = [] ∧
    (RateLimiter.init cp iv).wait now now2 = .error .indexError := by
  refine ⟨rfl, ?_⟩
  unfold RateLimiter.wait RateLimiter.init
  dsimp only
  have hempty : prune [] now iv = [] := rfl
  rw [hempty]
  rw [if_pos (by simpa using hcp)]

theorem C9_witness :
    (RateLimiter.init (-2) 7).calls = [] ∧
    (RateLimiter.init (-2) 7).wait 5 5 = .error .indexError :=
  C9_nonpositive_capacity_first_wait_index_error (by norm_num)

/-- C10: after every `wait()` under a nondecreasing clock the stored
timestamp list is sorted in nondecreasing order and its physical length
is at most `capacity + 1` (one logically expired entry can be retained
until the next call prunes it). -/
theorem C10_sorted_and_bounded_length {cap : ℤ} {iv : ℚ}
    {admitted calls : List ℚ} {t : ℚ}
    (hcap : 0 < cap) (_hiv : 0 < iv) (h : Run cap iv admitted calls t) :
    List.Sorted (· ≤ ·) calls ∧ (calls.length : ℤ) ≤ cap + 1 := by
  obtain ⟨-, -, -, -, -, h6, h7⟩ := run_inv hcap h
  exact ⟨h6, h7⟩

theorem C10_witness :
    List.Sorted (· ≤ ·) [(1 : ℚ)] ∧ (([(1 : ℚ)].length : ℤ)) ≤ 2 + 1 :=
  @C10_sorted_and_bounded_length 2 3 ([] ++ [1]) [1] 1 (by norm_num)
    (by norm_num)
    (Run.step [] [] [1] 0 1 1 0 (Run.init 0) (by norm_num) (by decide)
      (by norm_num))
